import Mathlib

/-!
Shallow embedding of the VAE model in `moses/vae/model.py` (class `VAE`),
together with proofs about its spec-level properties.

The tensor/autodiff substrate (GRU cells, linear layers, multinomial
sampling) is treated as an external black box, exactly as the spec's
scope declares: where the algorithmic structure of `model.py` consumes a
black-box value (an RNN output, a random draw), the embedding takes that
value as an explicit function parameter, so every theorem quantifies over
all possible behaviours of the black box.  Machine reals are modelled by
`ℝ`, token ids by `ℕ`, strings by `List Char`.
-/

namespace VAE

/-- External `Vocabulary` collaborator, as consumed by `VAE.__init__`,
`VAE.string2tensor` and `VAE.tensor2string`: reserved ids and the two
conversion functions `string2ids(s, add_bos, add_eos)` and
`ids2string(ids, rem_bos, rem_eos)`. -/
structure Vocabulary where
  bos : ℕ
  eos : ℕ
  unk : ℕ
  pad : ℕ
  string2ids : List Char → Bool → Bool → List ℕ
  ids2string : List ℕ → Bool → Bool → List Char

/-- Embedding of `VAE.string2tensor` (model.py lines 69-76): delegates to
`self.vocabulary.string2ids(string, add_bos=True, add_eos=True)`; the
device placement is irrelevant to the value. -/
def string2tensor (v : Vocabulary) (s : List Char) : List ℕ :=
  v.string2ids s true true

/-- Embedding of `VAE.tensor2string` (model.py lines 78-82): delegates to
`self.vocabulary.ids2string(ids, rem_bos=True, rem_eos=True)`. -/
def tensor2string (v : Vocabulary) (ids : List ℕ) : List Char :=
  v.ids2string ids true true

/-- Embedding of the reparameterization step of `VAE.forward_encoder`
(model.py line 119): `z = mu + (logvar / 2).exp() * eps`, per coordinate. -/
noncomputable def reparameterize (mu logvar eps : ℝ) : ℝ :=
  mu + Real.exp (logvar / 2) * eps

/-- Embedding of the KL term of `VAE.forward_encoder` (model.py line 121):
`kl_loss = 0.5 * (logvar.exp() + mu ** 2 - 1 - logvar).sum(1).mean()`
for a batch of `n` rows of `d` latent dimensions.  `.sum(1)` sums over the
latent dimensions of each row and `.mean()` averages over the batch. -/
noncomputable def kl_loss (n d : ℕ) (mu logvar : Fin n → Fin d → ℝ) : ℝ :=
  0.5 * ((∑ i, ∑ j, (Real.exp (logvar i j) + (mu i j) ^ 2 - 1 - logvar i j)) / n)

/-- The spec's phrasing of the same KL term (spec §4.1): the per-row value
`0.5 * sum_over_dims(exp(logvar) + mu^2 - 1 - logvar)`, averaged across
the batch. -/
noncomputable def kl_loss_spec (n d : ℕ) (mu logvar : Fin n → Fin d → ℝ) : ℝ :=
  (∑ i, 0.5 * ∑ j, (Real.exp (logvar i j) + (mu i j) ^ 2 - 1 - logvar i j)) / n

/-- Per-call state of the generating cycle of `VAE.sample`
(model.py lines 218-224): the token buffer `x` (indexed sequence then
position), the recorded `end_pads`, and the `eos_mask` flags.  The
PyTorch tensors are batch-wide; here each is a function of the sequence
index (positions or values beyond the real extent are never read by the
algorithm). -/
structure SState where
  xbuf : ℕ → ℕ → ℕ
  end_pads : ℕ → ℕ
  eos_mask : ℕ → Bool

/-- Initial sampler state (model.py lines 218-224): `x` all `pad` with
`x[:, 0] = bos`, `end_pads = max_len`, `eos_mask = false`. -/
def initState (bos pad max_len : ℕ) : SState :=
  { xbuf := fun _ j => if j = 0 then bos else pad
    end_pads := fun _ => max_len
    eos_mask := fun _ => false }

/-- One iteration of the generating cycle (model.py lines 235-239) at step
`i`, where `w s` is the token drawn by `torch.multinomial` for sequence
`s` at this step:
`x[~eos_mask, i] = w[~eos_mask]`; `i_eos_mask = ~eos_mask & (w == eos)`;
`end_pads[i_eos_mask] = i + 1`; `eos_mask = eos_mask | i_eos_mask`. -/
def sampleStep (eos : ℕ) (w : ℕ → ℕ) (i : ℕ) (st : SState) : SState :=
  { xbuf := fun s j => if j = i ∧ st.eos_mask s = false then w s else st.xbuf s j
    end_pads := fun s =>
      if st.eos_mask s = false ∧ w s = eos then i + 1 else st.end_pads s
    eos_mask := fun s => st.eos_mask s || (!st.eos_mask s && (w s == eos)) }

/-- The generating cycle `for i in range(1, max_len)` of `VAE.sample`
(model.py lines 227-239), run from step `i` up to (excluding) `stop`,
threading the state and counting the executed iterations.  The token
drawn at step `i` for sequence `s` is `draw i s`: the draw is the output
of the black-box decoder RNN chain plus `torch.multinomial`, so it is
taken as an arbitrary function — every theorem below holds for all
draws. -/
def genLoopAux (eos : ℕ) (draw : ℕ → ℕ → ℕ) :
    ℕ → SState → ℕ → ℕ → SState × ℕ
  | _, st, count, 0 => (st, count)
  | i, st, count, n + 1 =>
      genLoopAux eos draw (i + 1) (sampleStep eos (draw i) i st) (count + 1) n

/-- The loop entered at step `i` with `stop - i` iterations left, i.e.
exactly the iterations `i, i+1, ..., stop-1` of the Python `for`. -/
def genLoop (eos : ℕ) (draw : ℕ → ℕ → ℕ) (stop : ℕ) (i : ℕ)
    (st : SState) (count : ℕ) : SState × ℕ :=
  genLoopAux eos draw i st count (stop - i)

/-- Final sampler state for one call of `VAE.sample` with the given draws:
the generating cycle started at `i = 1` on the initial state. -/
def sampleFinal (bos eos pad : ℕ) (draw : ℕ → ℕ → ℕ) (max_len : ℕ) : SState :=
  (genLoop eos draw max_len 1 (initState bos pad max_len) 0).1

/-- Truncated token rows of `VAE.sample` (model.py lines 242-244):
`new_x.append(x[i, :end_pads[i]])` for each of the `n_batch` sequences. -/
def sampleTokens (bos eos pad : ℕ) (draw : ℕ → ℕ → ℕ)
    (n_batch max_len : ℕ) : List (List ℕ) :=
  let st := sampleFinal bos eos pad draw max_len
  (List.range n_batch).map fun s => (List.range (st.end_pads s)).map (st.xbuf s)

/-- Embedding of `VAE.sample` (model.py lines 199-247): the truncated rows
converted to strings via `tensor2string`, i.e.
`ids2string(·, rem_bos=True, rem_eos=True)`.  The latent `z` and the
temperature only influence the drawn tokens, hence are absorbed into
`draw`. -/
def sample (v : Vocabulary) (draw : ℕ → ℕ → ℕ)
    (n_batch max_len : ℕ) : List (List Char) :=
  (sampleTokens v.bos v.eos v.pad draw n_batch max_len).map (tensor2string v)

/-- Per-position term of `F.cross_entropy` for one logit row and one target
class index: `-log softmax(row)[t] = log (sum_k exp row_k) - row_t`. -/
noncomputable def softCE (row : List ℝ) (t : ℕ) : ℝ :=
  Real.log ((row.map Real.exp).sum) - row.getD t 0

/-- Embedding of `F.cross_entropy(input, target, ignore_index=pad)` with the
default mean reduction: logit rows are paired with target ids, positions
whose target equals `pad` are ignored, and the per-position terms are
averaged over the non-ignored positions. -/
noncomputable def cross_entropy (pad : ℕ) (logits : List (List ℝ))
    (targets : List ℕ) : ℝ :=
  let active := (logits.zip targets).filter fun p => decide (p.2 ≠ pad)
  (active.map fun p => softCE p.1 p.2).sum / active.length

/-- Embedding of the body of `VAE.compute_loss` (model.py lines 153-157):
`F.cross_entropy(y[:, :-1].contiguous().view(-1, V), x[:, 1:].contiguous().view(-1), ignore_index=pad)`.
For the rectangular tensors of the source, dropping the last position of
each `y` row and the first token of each `x` row and flattening both
realises the shift-by-one pairing. -/
noncomputable def compute_loss (pad : ℕ) (x : List (List ℕ))
    (y : List (List (List ℝ))) : ℝ :=
  cross_entropy pad (y.flatMap List.dropLast) (x.flatMap (List.drop 1))

/-- Number of parameters in the source definition
`def compute_loss(x, y):` (model.py line 151) — `self` is missing. -/
def compute_loss_paramCount : ℕ := 2

/-- Number of arguments supplied by the bound-method call
`self.compute_loss(x, pred)` (model.py line 97): the instance plus two
positional arguments. -/
def compute_loss_argCount : ℕ := 3

/-- Python call semantics for a method invoked with a fixed number of
arguments: if the argument count differs from the parameter count the
call raises `TypeError` before the body runs. -/
def callMethod {α : Type} (nparams nargs : ℕ) (body : Unit → α) :
    Except String α :=
  if nargs = nparams then .ok (body ()) else .error "TypeError"

/-- A well-formed batch as the spec's data model defines it (spec §3):
a non-empty list of token-id rows, each beginning with `bos` and ending
with `eos`. -/
def wellFormedBatch (bos eos : ℕ) (x : List (List ℕ)) : Prop :=
  x ≠ [] ∧ ∀ r ∈ x, r.head? = some bos ∧ r.getLast? = some eos

instance (bos eos : ℕ) (x : List (List ℕ)) :
    Decidable (wellFormedBatch bos eos x) := by
  unfold wellFormedBatch; infer_instance

/-- Embedding of `VAE.forward` (model.py lines 84-99): encoder gives
`(z, kl_loss)`, decoder gives `pred`, then `recon_loss =
self.compute_loss(x, pred)`.  The encoder and decoder bodies are
black-box tensor computations and are taken as arbitrary functions; the
`compute_loss` invocation goes through Python's bound-method call, whose
arity check is embedded by `callMethod`. -/
noncomputable def forward {Z : Type} (pad : ℕ)
    (encoder : List (List ℕ) → Z × ℝ)
    (decoder : List (List ℕ) → Z → List (List (List ℝ)))
    (x : List (List ℕ)) : Except String (ℝ × ℝ) :=
  let p := encoder x
  let pred := decoder x p.1
  (callMethod compute_loss_paramCount compute_loss_argCount
      (fun _ => compute_loss pad x pred)).map fun recon => (p.2, recon)

/-- Embedding of `glob.glob(pattern)[0]` (model.py lines 255-392): Python
list indexing of the match list; an empty match list raises `IndexError`,
otherwise the first match (in glob order) is used without inspecting the
rest. -/
def globFirst (ms : List String) : Except String String :=
  match ms with
  | [] => .error "IndexError: list index out of range"
  | m :: _ => .ok m

/-- The `param_idx` list of `VAE.load_lbann_weights` (model.py line 340). -/
def param_idx : List String := ["_ih_matrix", "_hh_matrix", "_ih_bias", "_hh_bias"]

/-- The glob patterns required by `VAE.load_lbann_weights`
(model.py lines 255-392), in the order the source queries them.  `wd` is
`weights_dir`, `ec` is `str(epoch_count)` after the `epoch_count < 0 ↦ "*"`
rewrite, and the two layer counts come from the encoder and decoder RNNs.
The encoder-RNN loop of the source does not interpolate the layer index
into its pattern, so the same pattern repeats; the decoder-RNN loop
interpolates `str(l)`. -/
def requiredPatterns (wd ec : String) (q_n_layers d_n_layers : ℕ) :
    List String :=
  [wd ++ "*.epoch." ++ ec ++ "*-emb_matrix-Weights.txt",
   wd ++ "*.epoch." ++ ec ++ "*qlogvar_matrix-Weights.txt",
   wd ++ "*.epoch." ++ ec ++ "*qlogvar_bias-Weights.txt",
   wd ++ "*.epoch." ++ ec ++ "*qmu_matrix-Weights.txt",
   wd ++ "*.epoch." ++ ec ++ "*-molvae_module1_encoder_qmu_bias-Weights.txt",
   wd ++ "*.epoch." ++ ec ++ "*-molvae_module1_decoder_lat_matrix-Weights.txt",
   wd ++ "*.epoch." ++ ec ++ "*-molvae_module1_decoder_lat_bias-Weights.txt"]
  ++ (List.range q_n_layers).flatMap (fun _ =>
      param_idx.map fun val =>
        wd ++ "*.epoch." ++ ec ++ "*-molvae_module1_encoder_rnn*" ++ val
          ++ "-Weights.txt")
  ++ (List.range d_n_layers).flatMap (fun l =>
      param_idx.map fun val =>
        wd ++ "*.epoch." ++ ec ++ "*-molvae_module1_decoder_rnn*"
          ++ toString l ++ val ++ "-Weights.txt")
  ++ [wd ++ "*.epoch." ++ ec ++ "*_decoder_fc_matrix-Weights.txt",
      wd ++ "*.epoch." ++ ec ++ "*_decoder_fc_bias-Weights.txt"]

/-- Embedding of `VAE.load_lbann_weights` (model.py lines 249-394) at the
file-lookup level: `globfn` is the filesystem's answer to `glob.glob`;
each required pattern is resolved through `glob.glob(...)[0]` in source
order, and the selected file names are returned (the subsequent
`np.loadtxt`/`copy_` marshalling is out of the spec's scope).  A failing
lookup aborts the remaining lookups, exactly as the raised `IndexError`
does. -/
def load_lbann_weights (globfn : String → List String) (weights_dir : String)
    (epoch_count : Int) (q_n_layers d_n_layers : ℕ) :
    Except String (List String) :=
  let ec := if epoch_count < 0 then "*" else toString epoch_count
  (requiredPatterns weights_dir ec q_n_layers d_n_layers).mapM fun p =>
    globFirst (globfn p)

/-- Concrete vocabulary of the spec's §8 scenario: `bos=0, eos=1, pad=2,
unk=3`, tokens `4 ↦ 'C'` and `5 ↦ 'O'`.  Used to instantiate theorems
with hypotheses about the external vocabulary collaborator. -/
def specVocab : Vocabulary :=
  { bos := 0, eos := 1, unk := 3, pad := 2
    string2ids := fun s ab ae =>
      (if ab then [0] else [])
        ++ s.map (fun c => if c = 'C' then 4 else if c = 'O' then 5 else 3)
        ++ (if ae then [1] else [])
    ids2string := fun ids _ _ =>
      (ids.filter fun i => decide (4 ≤ i)).map fun i =>
        if i = 4 then 'C' else 'O' }

/-- Loop invariant of the generating cycle before executing step `i`:
positions `≥ max(i, 1)` of every buffer row are still `pad`, position `0`
is still `bos`, an ended sequence has `2 ≤ end_pads ≤ i` with `pad` at all
buffer positions from `end_pads` up to `i`, and a live sequence still has
`end_pads = max_len`. -/
def SInv (bos pad max_len i : ℕ) (st : SState) : Prop :=
  (∀ s j, i ≤ j → 1 ≤ j → st.xbuf s j = pad) ∧
  (∀ s, st.xbuf s 0 = bos) ∧
  (∀ s, st.eos_mask s = true →
    2 ≤ st.end_pads s ∧ st.end_pads s ≤ i ∧
    ∀ j, st.end_pads s ≤ j → j < i → st.xbuf s j = pad) ∧
  (∀ s, st.eos_mask s = false → st.end_pads s = max_len)

/-- An everywhere-ambiguous filesystem answer: every glob pattern matches
exactly the two files `a.txt` and `b.txt`. -/
def ambiguousGlob : String → List String := fun _ => ["a.txt", "b.txt"]

/-- A filesystem answer on which every glob pattern matches exactly one
file. -/
def singleGlob : String → List String := fun _ => ["only.txt"]

end VAE

open VAE

/-- Unfolding `genLoop` one iteration while the loop guard holds. -/
theorem genLoop_step (eos : ℕ) (draw : ℕ → ℕ → ℕ) (stop i : ℕ) (st : SState)
    (c : ℕ) (h : i < stop) :
    genLoop eos draw stop i st c
      = genLoop eos draw stop (i + 1) (sampleStep eos (draw i) i st) (c + 1) := by
  unfold genLoop
  rw [show stop - i = (stop - (i + 1)) + 1 from by omega]
  rfl

/-- The loop returns its state unchanged once the guard fails. -/
theorem genLoop_stop (eos : ℕ) (draw : ℕ → ℕ → ℕ) (stop i : ℕ) (st : SState)
    (c : ℕ) (h : ¬ i < stop) :
    genLoop eos draw stop i st c = (st, c) := by
  unfold genLoop
  rw [show stop - i = 0 from by omega]
  rfl

/-- Chaining `glob.glob(...)[0]` over a pattern list succeeds when every
pattern has at least one match and returns the first match of each, in
order. -/
theorem mapM_globFirst_ok (globfn : String → List String) :
    ∀ pats : List String, (∀ p ∈ pats, globfn p ≠ []) →
      (pats.mapM fun p => globFirst (globfn p))
        = Except.ok (pats.map fun p => (globfn p).headD "") := by
  intro pats
  induction pats with
  | nil => intro _; rfl
  | cons a l ih =>
    intro h
    have ha := h a (List.mem_cons_self a l)
    have hl := ih fun p hp => h p (List.mem_cons_of_mem a hp)
    rw [List.mapM_cons, hl]
    cases hga : globfn a with
    | nil => exact absurd hga ha
    | cons m ms =>
      have hfa : globFirst (m :: ms) = Except.ok m := rfl
      rw [hfa, List.map_cons, hga]
      rfl

/-- Chaining `glob.glob(...)[0]` over a pattern list raises an error
exactly when some pattern has zero matches. -/
theorem mapM_globFirst_error_iff (globfn : String → List String) :
    ∀ pats : List String,
      ((∃ e, (pats.mapM fun p => globFirst (globfn p)) = Except.error e) ↔
        ∃ p ∈ pats, globfn p = []) := by
  intro pats
  induction pats with
  | nil =>
    constructor
    · rintro ⟨e, he⟩
      exact nomatch he
    · rintro ⟨p, hp, _⟩
      exact absurd hp (List.not_mem_nil p)
  | cons a l ih =>
    rw [List.mapM_cons]
    cases hga : globfn a with
    | nil =>
      have hfa : globFirst ([] : List String)
          = Except.error "IndexError: list index out of range" := rfl
      rw [hfa]
      constructor
      · intro _
        exact ⟨a, List.mem_cons_self a l, hga⟩
      · intro _
        exact ⟨"IndexError: list index out of range", rfl⟩
    | cons m ms =>
      have hfa : globFirst (m :: ms) = Except.ok m := rfl
      rw [hfa]
      constructor
      · rintro ⟨e, he⟩
        rcases hml : (l.mapM fun p => globFirst (globfn p)) with e2 | bs
        · rcases ih.mp ⟨e2, hml⟩ with ⟨p, hp, hgp⟩
          exact ⟨p, List.mem_cons_of_mem a hp, hgp⟩
        · rw [hml] at he
          exact nomatch he
      · rintro ⟨p, hp, hgp⟩
        rcases List.mem_cons.mp hp with rfl | hp2
        · rw [hgp] at hga
          exact nomatch hga
        · rcases ih.mpr ⟨p, hp2, hgp⟩ with ⟨e, he⟩
          exact ⟨e, by rw [he]; rfl⟩

/-- C3 as stated is refuted: with every required pattern matching exactly
two files (an ambiguous epoch selection, no explicit epoch argument:
`epoch_count = -1`), the import does not fail — it silently proceeds
with the first match of each pattern. -/
theorem load_lbann_weights_ambiguous_counterexample :
    (ambiguousGlob "w/*.epoch.**-emb_matrix-Weights.txt").length = 2 ∧
    load_lbann_weights ambiguousGlob "w/" (-1) 1 1
      = Except.ok (List.replicate 17 "a.txt") := by
  constructor
  · rfl
  · rfl

/-- C3 amended: a required pattern with zero matches makes the import fail
with a lookup error (Python `IndexError`), but when every required
pattern has at least one match — including the ambiguous case of several
matches — the import proceeds, using the first match of each pattern in
glob order. -/
theorem load_lbann_weights_zero_match_fails_multiple_proceeds
    (globfn : String → List String) (wd : String) (epoch_count : Int)
    (q_n_layers d_n_layers : ℕ) :
    ((∃ e, load_lbann_weights globfn wd epoch_count q_n_layers d_n_layers
        = Except.error e) ↔
      ∃ p ∈ requiredPatterns wd
          (if epoch_count < 0 then "*" else toString epoch_count)
          q_n_layers d_n_layers, globfn p = []) ∧
    ((∀ p ∈ requiredPatterns wd
          (if epoch_count < 0 then "*" else toString epoch_count)
          q_n_layers d_n_layers, globfn p ≠ []) →
      load_lbann_weights globfn wd epoch_count q_n_layers d_n_layers
        = Except.ok ((requiredPatterns wd
            (if epoch_count < 0 then "*" else toString epoch_count)
            q_n_layers d_n_layers).map fun p => (globfn p).headD "")) :=
  ⟨mapM_globFirst_error_iff globfn _, fun h => mapM_globFirst_ok globfn _ h⟩

/-- Witness for the amended C3 on a filesystem where every pattern matches
exactly one file. -/
theorem load_lbann_weights_amended_witness :
    ((∃ e, load_lbann_weights singleGlob "w/" 3 0 0 = Except.error e) ↔
      ∃ p ∈ requiredPatterns "w/" (if (3 : Int) < 0 then "*" else toString (3 : Int))
          0 0, singleGlob p = []) ∧
    ((∀ p ∈ requiredPatterns "w/" (if (3 : Int) < 0 then "*" else toString (3 : Int))
          0 0, singleGlob p ≠ []) →
      load_lbann_weights singleGlob "w/" 3 0 0
        = Except.ok ((requiredPatterns "w/"
            (if (3 : Int) < 0 then "*" else toString (3 : Int)) 0 0).map
              fun p => (singleGlob p).headD "")) :=
  load_lbann_weights_zero_match_fails_multiple_proceeds singleGlob "w/" 3 0 0

/-- C1 is refuted by the code: for every well-formed batch the training
forward pass does not return the pair of loss scalars — the bound-method
call `self.compute_loss(x, pred)` supplies 3 arguments to the 2-parameter
`def compute_loss(x, y)` (whose `self` parameter is missing), so Python
raises `TypeError` before any loss value is produced. -/
theorem forward_raises_typeerror {Z : Type} (bos eos pad : ℕ)
    (encoder : List (List ℕ) → Z × ℝ)
    (decoder : List (List ℕ) → Z → List (List (List ℝ)))
    (x : List (List ℕ)) (_hwf : wellFormedBatch bos eos x) :
    forward pad encoder decoder x = Except.error "TypeError" := by
  simp [forward, callMethod, compute_loss_paramCount, compute_loss_argCount,
    Except.map]

/-- Witness for C1 at the concrete well-formed batch `[[0, 4, 5, 1]]`
(the spec §8 scenario: "CO" encoded with `bos = 0`, `eos = 1`). -/
theorem forward_raises_typeerror_witness :
    wellFormedBatch 0 1 ([[0, 4, 5, 1]]) ∧
    forward (Z := Unit) 3 (fun _ => ((), 0)) (fun _ _ => []) ([[0, 4, 5, 1]])
      = Except.error "TypeError" :=
  ⟨by decide,
   forward_raises_typeerror 0 1 3 (fun _ => ((), 0)) (fun _ _ => [])
     ([[0, 4, 5, 1]]) (by decide)⟩

/-- C8: the reparameterization step is a deterministic (pure) function of
`(mu, logvar, eps)`: two runs with identical inputs produce the identical
latent sample, and the sample is exactly `mu + exp(logvar/2) * eps`. -/
theorem reparameterize_deterministic (mu lv eps mu2 lv2 eps2 : ℝ)
    (hmu : mu = mu2) (hlv : lv = lv2) (heps : eps = eps2) :
    reparameterize mu lv eps = reparameterize mu2 lv2 eps2 ∧
    reparameterize mu lv eps = mu + Real.exp (lv / 2) * eps := by
  subst hmu hlv heps
  exact ⟨rfl, rfl⟩

/-- Witness for C8 at the concrete input `mu = 1`, `logvar = 0`, `eps = 2`. -/
theorem reparameterize_deterministic_witness :
    reparameterize 1 0 2 = reparameterize 1 0 2 ∧
    reparameterize 1 0 2 = 1 + Real.exp (0 / 2) * 2 :=
  reparameterize_deterministic 1 0 2 1 0 2 rfl rfl rfl

/-- C9: converting a string to a token-id tensor (adding `bos`/`eos`) and
back (removing `bos`/`eos`) yields exactly the original string whenever
the vocabulary's encode/decode contract holds for that string; the model
performs no transformation beyond delegating to the vocabulary. -/
theorem string2tensor_tensor2string_roundtrip (v : Vocabulary) (s : List Char)
    (h : v.ids2string (v.string2ids s true true) true true = s) :
    tensor2string v (string2tensor v s) = s := h

/-- Witness for C9: the spec §8 scenario vocabulary on the string "CO",
which encodes to `[0, 4, 5, 1]` and decodes back to "CO". -/
theorem string2tensor_tensor2string_roundtrip_witness :
    specVocab.ids2string (specVocab.string2ids (['C', 'O']) true true) true true
        = ['C', 'O'] ∧
    tensor2string specVocab (string2tensor specVocab (['C', 'O'])) = ['C', 'O'] :=
  ⟨by decide,
   string2tensor_tensor2string_roundtrip specVocab (['C', 'O']) (by decide)⟩

/-- Each summand of the KL sum is non-negative:
`exp x + m^2 - 1 - x ≥ 0`, since `exp x ≥ x + 1` and `m^2 ≥ 0`. -/
theorem kl_term_nonneg (x m : ℝ) : 0 ≤ Real.exp x + m ^ 2 - 1 - x := by
  have h := Real.add_one_le_exp x
  nlinarith [sq_nonneg m]

/-- A KL summand vanishes only at `m = 0`, `x = 0`. -/
theorem kl_term_eq_zero (x m : ℝ) (h : Real.exp x + m ^ 2 - 1 - x = 0) :
    m = 0 ∧ x = 0 := by
  have h1 := Real.add_one_le_exp x
  have hm : m ^ 2 = 0 := by nlinarith [sq_nonneg m]
  have hx : x = 0 := by
    by_contra hx
    have := Real.add_one_lt_exp hx
    nlinarith
  exact ⟨by nlinarith [sq_nonneg m], hx⟩

/-- C4: the KL term of the encoder equals the spec's closed form
`0.5 * sum_over_dims(exp(logvar) + mu^2 - 1 - logvar)` averaged across
the batch; it is non-negative for all `mu`, `logvar`; and it equals `0`
exactly when `mu` and `logvar` vanish at every batch element and latent
dimension. -/
theorem kl_loss_nonneg_and_zero_iff (n d : ℕ) (mu logvar : Fin n → Fin d → ℝ) :
    kl_loss n d mu logvar = kl_loss_spec n d mu logvar ∧
    0 ≤ kl_loss n d mu logvar ∧
    (kl_loss n d mu logvar = 0 ↔ ∀ i j, mu i j = 0 ∧ logvar i j = 0) := by
  have hterm : ∀ i : Fin n, ∀ j : Fin d,
      0 ≤ Real.exp (logvar i j) + (mu i j) ^ 2 - 1 - logvar i j :=
    fun i j => kl_term_nonneg (logvar i j) (mu i j)
  have hrow : ∀ i : Fin n,
      0 ≤ ∑ j, (Real.exp (logvar i j) + (mu i j) ^ 2 - 1 - logvar i j) :=
    fun i => Finset.sum_nonneg fun j _ => hterm i j
  have hsum : 0 ≤ ∑ i, ∑ j,
      (Real.exp (logvar i j) + (mu i j) ^ 2 - 1 - logvar i j) :=
    Finset.sum_nonneg fun i _ => hrow i
  refine ⟨?_, ?_, ?_⟩
  · unfold kl_loss kl_loss_spec
    rw [← Finset.mul_sum, mul_div_assoc]
  · unfold kl_loss
    have hn : (0 : ℝ) ≤ (n : ℝ) := Nat.cast_nonneg n
    positivity
  · constructor
    · intro h0 i j
      have hn : (0 : ℝ) < (n : ℝ) := by
        have : 0 < n := Fin.pos i
        exact_mod_cast this
      unfold kl_loss at h0
      have hS : ∑ i, ∑ j,
          (Real.exp (logvar i j) + (mu i j) ^ 2 - 1 - logvar i j) = 0 := by
        rcases mul_eq_zero.mp h0 with h | h
        · norm_num at h
        · rcases div_eq_zero_iff.mp h with h | h
          · exact h
          · exact absurd h (ne_of_gt hn)
      have hrows := (Finset.sum_eq_zero_iff_of_nonneg
        (fun i _ => hrow i)).mp hS
      have hterms := (Finset.sum_eq_zero_iff_of_nonneg
        (fun j _ => hterm i j)).mp (hrows i (Finset.mem_univ i))
      have := kl_term_eq_zero (logvar i j) (mu i j)
        (hterms j (Finset.mem_univ j))
      exact ⟨this.1, this.2⟩
    · intro hall
      unfold kl_loss
      have : ∀ i : Fin n, ∀ j : Fin d,
          Real.exp (logvar i j) + (mu i j) ^ 2 - 1 - logvar i j = 0 := by
        intro i j
        rcases hall i j with ⟨h1, h2⟩
        rw [h1, h2]
        simp
      rw [Finset.sum_congr rfl fun i _ =>
        Finset.sum_congr rfl fun j _ => this i j]
      simp

/-- A step leaves an already-ended sequence's buffer row, end position and
flag untouched: its freshly drawn token is discarded. -/
theorem sampleStep_frozen (eos : ℕ) (w : ℕ → ℕ) (i : ℕ) (st : SState) (s : ℕ)
    (h : st.eos_mask s = true) :
    (sampleStep eos w i st).xbuf s = st.xbuf s ∧
    (sampleStep eos w i st).end_pads s = st.end_pads s ∧
    (sampleStep eos w i st).eos_mask s = true := by
  refine ⟨funext fun j => ?_, ?_, ?_⟩ <;> simp [sampleStep, h]

/-- Once a sequence's flag is set, every remaining loop iteration leaves
its per-sequence state unchanged. -/
theorem genLoop_frozen (eos : ℕ) (draw : ℕ → ℕ → ℕ) (stop i : ℕ) (st : SState)
    (c s : ℕ) (h : st.eos_mask s = true) :
    (genLoop eos draw stop i st c).1.xbuf s = st.xbuf s ∧
    (genLoop eos draw stop i st c).1.end_pads s = st.end_pads s ∧
    (genLoop eos draw stop i st c).1.eos_mask s = true := by
  by_cases hi : i < stop
  · rw [genLoop_step eos draw stop i st c hi]
    have hstep := sampleStep_frozen eos (draw i) i st s h
    have ih := genLoop_frozen eos draw stop (i + 1)
      (sampleStep eos (draw i) i st) (c + 1) s hstep.2.2
    exact ⟨ih.1.trans hstep.1, ih.2.1.trans hstep.2.1, ih.2.2⟩
  · rw [genLoop_stop eos draw stop i st c hi]
    exact ⟨rfl, rfl, h⟩
termination_by stop - i
decreasing_by omega

/-- The loop body runs once per remaining fuel unit, unconditionally. -/
theorem genLoopAux_count (eos : ℕ) (draw : ℕ → ℕ → ℕ) :
    ∀ (n i c : ℕ) (st : SState), (genLoopAux eos draw i st c n).2 = c + n := by
  intro n
  induction n with
  | zero => intro i c st; rfl
  | succ n ih =>
    intro i c st
    show (genLoopAux eos draw (i + 1)
      (sampleStep eos (draw i) i st) (c + 1) n).2 = c + (n + 1)
    rw [ih]
    omega

/-- C7: the generating cycle of the sampler executes exactly `max_len - 1`
iterations (the steps `t = 1 .. max_len-1`), for every draw function and
from every starting state — including states whose sequences have all
already ended — so the loop never exits early.  The batch size, latent
`z` and temperature influence only `draw` and are quantified away. -/
theorem sample_loop_fixed_iteration_count (eos : ℕ) (draw : ℕ → ℕ → ℕ)
    (max_len : ℕ) (st : SState) :
    (genLoop eos draw max_len 1 st 0).2 = max_len - 1 := by
  unfold genLoop
  rw [genLoopAux_count]
  omega

/-- A sequence that never draws `eos` during iterations `i .. stop-1` stays
unended with its end position unchanged. -/
theorem genLoop_no_eos (eos : ℕ) (draw : ℕ → ℕ → ℕ) (stop i : ℕ) (st : SState)
    (c s : ℕ) (h : st.eos_mask s = false)
    (hne : ∀ u, i ≤ u → u < stop → draw u s ≠ eos) :
    (genLoop eos draw stop i st c).1.eos_mask s = false ∧
    (genLoop eos draw stop i st c).1.end_pads s = st.end_pads s := by
  by_cases hi : i < stop
  · rw [genLoop_step eos draw stop i st c hi]
    have hnei : draw i s ≠ eos := hne i (le_refl i) hi
    have hmask : (sampleStep eos (draw i) i st).eos_mask s = false := by
      simp [sampleStep, h, hnei]
    have hpads : (sampleStep eos (draw i) i st).end_pads s = st.end_pads s := by
      simp [sampleStep, hnei]
    have ih := genLoop_no_eos eos draw stop (i + 1)
      (sampleStep eos (draw i) i st) (c + 1) s hmask
      (fun u hu1 hu2 => hne u (by omega) hu2)
    exact ⟨ih.1, ih.2.trans hpads⟩
  · rw [genLoop_stop eos draw stop i st c hi]
    exact ⟨h, rfl⟩
termination_by stop - i
decreasing_by omega

/-- The per-sequence state evolution of sequence `s` depends only on the
draws for `s`: two runs whose draw functions agree on `s` over the
remaining iterations keep the state components of `s` equal. -/
theorem genLoop_agree (eos : ℕ) (draw draw2 : ℕ → ℕ → ℕ) (stop i : ℕ)
    (st st2 : SState) (c c2 s : ℕ)
    (hx : st.xbuf s = st2.xbuf s) (hp : st.end_pads s = st2.end_pads s)
    (hm : st.eos_mask s = st2.eos_mask s)
    (hd : ∀ u, i ≤ u → u < stop → draw u s = draw2 u s) :
    (genLoop eos draw stop i st c).1.xbuf s
        = (genLoop eos draw2 stop i st2 c2).1.xbuf s ∧
    (genLoop eos draw stop i st c).1.end_pads s
        = (genLoop eos draw2 stop i st2 c2).1.end_pads s ∧
    (genLoop eos draw stop i st c).1.eos_mask s
        = (genLoop eos draw2 stop i st2 c2).1.eos_mask s := by
  by_cases hi : i < stop
  · rw [genLoop_step eos draw stop i st c hi,
        genLoop_step eos draw2 stop i st2 c2 hi]
    have hdi : draw i s = draw2 i s := hd i (le_refl i) hi
    refine genLoop_agree eos draw draw2 stop (i + 1) _ _ (c + 1) (c2 + 1) s
      ?_ ?_ ?_ (fun u hu1 hu2 => hd u (by omega) hu2)
    · funext j
      show (if j = i ∧ st.eos_mask s = false then draw i s else st.xbuf s j)
        = (if j = i ∧ st2.eos_mask s = false then draw2 i s else st2.xbuf s j)
      rw [hx, hm, hdi]
    · show (if st.eos_mask s = false ∧ draw i s = eos then i + 1
          else st.end_pads s)
        = (if st2.eos_mask s = false ∧ draw2 i s = eos then i + 1
          else st2.end_pads s)
      rw [hp, hm, hdi]
    · show (st.eos_mask s || (!st.eos_mask s && (draw i s == eos)))
        = (st2.eos_mask s || (!st2.eos_mask s && (draw2 i s == eos)))
      rw [hm, hdi]
  · rw [genLoop_stop eos draw stop i st c hi,
        genLoop_stop eos draw2 stop i st2 c2 hi]
    exact ⟨hx, hp, hm⟩
termination_by stop - i
decreasing_by omega

/-- Splitting the loop at an intermediate step `k`. -/
theorem genLoop_split (eos : ℕ) (draw : ℕ → ℕ → ℕ) (stop k i : ℕ) (st : SState)
    (c : ℕ) (hik : i ≤ k) (hks : k ≤ stop) :
    genLoop eos draw stop i st c
      = genLoop eos draw stop k (genLoop eos draw k i st c).1
          (genLoop eos draw k i st c).2 := by
  rcases Nat.lt_or_ge i k with hlt | hge
  · rw [genLoop_step eos draw stop i st c (lt_of_lt_of_le hlt hks),
        genLoop_step eos draw k i st c hlt]
    exact genLoop_split eos draw stop k (i + 1) (sampleStep eos (draw i) i st)
      (c + 1) hlt hks
  · have heq : i = k := le_antisymm hik hge
    subst heq
    rw [genLoop_stop eos draw i i st c (lt_irrefl i)]
termination_by k - i
decreasing_by omega

/-- The invariant holds before the first iteration. -/
theorem SInv_initState (bos pad max_len : ℕ) :
    SInv bos pad max_len 1 (initState bos pad max_len) := by
  refine ⟨fun s j h1 h2 => ?_, fun s => rfl, fun s h => ?_, fun s _ => rfl⟩
  · show (if j = 0 then bos else pad) = pad
    rw [if_neg (by omega)]
  · exact nomatch h

/-- One iteration of the generating cycle preserves the invariant. -/
theorem SInv_sampleStep (bos eos pad max_len i : ℕ) (w : ℕ → ℕ) (st : SState)
    (hi : 1 ≤ i) (h : SInv bos pad max_len i st) :
    SInv bos pad max_len (i + 1) (sampleStep eos w i st) := by
  obtain ⟨h1, h2, h3, h4⟩ := h
  refine ⟨?_, ?_, ?_, ?_⟩
  · intro s j hj hj1
    show (if j = i ∧ st.eos_mask s = false then w s else st.xbuf s j) = pad
    rw [if_neg (fun hc => absurd hc.1 (by omega))]
    exact h1 s j (by omega) hj1
  · intro s
    show (if 0 = i ∧ st.eos_mask s = false then w s else st.xbuf s 0) = bos
    rw [if_neg (fun hc => absurd hc.1 (by omega))]
    exact h2 s
  · intro s hs
    cases hm : st.eos_mask s with
    | true =>
      obtain ⟨ha, hb, hc⟩ := h3 s hm
      have hfrozen := sampleStep_frozen eos w i st s hm
      rw [hfrozen.2.1]
      refine ⟨ha, by omega, fun j hj1 hj2 => ?_⟩
      rw [hfrozen.1]
      rcases Nat.lt_or_ge j i with hji | hji
      · exact hc j hj1 hji
      · have hje : j = i := by omega
        subst hje
        exact h1 s j (le_refl j) (by omega)
    | false =>
      have hw : w s = eos := by
        have hred : (sampleStep eos w i st).eos_mask s = (w s == eos) := by
          simp [sampleStep, hm]
        rw [hred] at hs
        exact eq_of_beq hs
      have hpads : (sampleStep eos w i st).end_pads s = i + 1 := by
        simp [sampleStep, hm, hw]
      rw [hpads]
      exact ⟨by omega, le_refl (i + 1), fun j hj1 hj2 => absurd hj1 (by omega)⟩
  · intro s hs
    cases hm : st.eos_mask s with
    | true =>
      have hfr := (sampleStep_frozen eos w i st s hm).2.2
      rw [hfr] at hs
      exact nomatch hs
    | false =>
      have hw : ¬ w s = eos := by
        intro hweq
        have hred : (sampleStep eos w i st).eos_mask s = true := by
          simp [sampleStep, hm, hweq]
        rw [hred] at hs
        exact nomatch hs
      have hpads : (sampleStep eos w i st).end_pads s = st.end_pads s := by
        simp [sampleStep, hm, hw]
      rw [hpads]
      exact h4 s hm

/-- Running the loop preserves the invariant up to the reached step. -/
theorem genLoop_SInv (bos eos pad max_len : ℕ) (draw : ℕ → ℕ → ℕ)
    (stop i : ℕ) (st : SState) (c : ℕ) (hi : 1 ≤ i)
    (h : SInv bos pad max_len i st) :
    SInv bos pad max_len (max stop i) (genLoop eos draw stop i st c).1 := by
  by_cases hlt : i < stop
  · rw [genLoop_step eos draw stop i st c hlt]
    have hstep := SInv_sampleStep bos eos pad max_len i (draw i) st hi h
    have ih := genLoop_SInv bos eos pad max_len draw stop (i + 1)
      (sampleStep eos (draw i) i st) (c + 1) (by omega) hstep
    rw [show max stop i = max stop (i + 1) from by omega]
    exact ih
  · rw [genLoop_stop eos draw stop i st c hlt]
    rw [show max stop i = i from by omega]
    exact h
termination_by stop - i
decreasing_by omega

/-- Indexing a mapped range at an in-bounds position. -/
theorem getD_map_range {α : Type} (f : ℕ → α) (n s : ℕ) (d : α) (h : s < n) :
    ((List.range n).map f).getD s d = f s := by
  rw [List.getD_eq_getElem?_getD, List.getElem?_map, List.getElem?_range h]
  rfl

/-- The head of a non-trivially mapped range. -/
theorem head_map_range {α : Type} (f : ℕ → α) (n : ℕ) (h : 0 < n) :
    ((List.range n).map f).head? = some (f 0) := by
  rw [List.head?_eq_getElem?, List.getElem?_map, List.getElem?_range h]
  rfl

/-- The truncated row returned for an in-range sequence `s`. -/
theorem sampleTokens_getD (bos eos pad : ℕ) (draw : ℕ → ℕ → ℕ)
    (n_batch max_len s : ℕ) (hs : s < n_batch) :
    (sampleTokens bos eos pad draw n_batch max_len).getD s []
      = (List.range ((sampleFinal bos eos pad draw max_len).end_pads s)).map
          ((sampleFinal bos eos pad draw max_len).xbuf s) := by
  simp only [sampleTokens]
  exact getD_map_range _ _ _ _ hs

/-- The string returned for an in-range sequence `s` is the conversion of
its truncated row. -/
theorem sample_getD (v : Vocabulary) (draw : ℕ → ℕ → ℕ)
    (n_batch max_len s : ℕ) (hs : s < n_batch) :
    (sample v draw n_batch max_len).getD s []
      = tensor2string v
          ((sampleTokens v.bos v.eos v.pad draw n_batch max_len).getD s []) := by
  unfold sample
  simp only [sampleTokens]
  rw [List.map_map, getD_map_range _ _ _ _ hs, getD_map_range _ _ _ _ hs]
  rfl

/-- C6: invariant at every iteration boundary of the generating cycle.  In
the state reached after executing steps `1 .. stop-1` on a buffer of
length `max_len`, any sequence `s` whose `eos` flag is set has `pad` at
every buffer position from its recorded end position onward, and the next
iteration (step `stop`) discards the token freshly drawn for `s`: its
buffer row, end position and flag are all left unchanged by the step. -/
theorem sample_ended_frozen_invariant (bos eos pad max_len : ℕ)
    (draw : ℕ → ℕ → ℕ) (stop s : ℕ)
    (hmask : ((genLoop eos draw stop 1 (initState bos pad max_len) 0).1).eos_mask s
      = true) :
    (∀ j, ((genLoop eos draw stop 1 (initState bos pad max_len) 0).1).end_pads s ≤ j →
      ((genLoop eos draw stop 1 (initState bos pad max_len) 0).1).xbuf s j = pad) ∧
    (sampleStep eos (draw stop) stop
        ((genLoop eos draw stop 1 (initState bos pad max_len) 0).1)).xbuf s
      = ((genLoop eos draw stop 1 (initState bos pad max_len) 0).1).xbuf s ∧
    (sampleStep eos (draw stop) stop
        ((genLoop eos draw stop 1 (initState bos pad max_len) 0).1)).end_pads s
      = ((genLoop eos draw stop 1 (initState bos pad max_len) 0).1).end_pads s ∧
    (sampleStep eos (draw stop) stop
        ((genLoop eos draw stop 1 (initState bos pad max_len) 0).1)).eos_mask s
      = true := by
  obtain ⟨h1, h2, h3, h4⟩ := genLoop_SInv bos eos pad max_len draw stop 1
    (initState bos pad max_len) 0 (le_refl 1) (SInv_initState bos pad max_len)
  obtain ⟨ha, hb, hc⟩ := h3 s hmask
  have hfrozen := sampleStep_frozen eos (draw stop) stop
    ((genLoop eos draw stop 1 (initState bos pad max_len) 0).1) s hmask
  refine ⟨fun j hj => ?_, hfrozen.1, hfrozen.2.1, hfrozen.2.2⟩
  rcases Nat.lt_or_ge j (max stop 1) with hji | hji
  · exact hc j hj hji
  · exact h1 s j (by omega) (by omega)

/-- Witness for C6: the draws emit `eos` (id 1) at step 2; at the iteration
boundary `stop = 4` sequence 0 has ended, its buffer is `pad` from its
end position on, and step 4 leaves it unchanged. -/
theorem sample_ended_frozen_invariant_witness :
    ((genLoop 1 (fun u _ => if u = 2 then 1 else 4) 4 1 (initState 0 2 5) 0).1).eos_mask 0
      = true ∧
    ((∀ j, ((genLoop 1 (fun u _ => if u = 2 then 1 else 4) 4 1 (initState 0 2 5) 0).1).end_pads 0 ≤ j →
      ((genLoop 1 (fun u _ => if u = 2 then 1 else 4) 4 1 (initState 0 2 5) 0).1).xbuf 0 j = 2) ∧
    (sampleStep 1 ((fun u _ => if u = 2 then 1 else 4) 4) 4
        ((genLoop 1 (fun u _ => if u = 2 then 1 else 4) 4 1 (initState 0 2 5) 0).1)).xbuf 0
      = ((genLoop 1 (fun u _ => if u = 2 then 1 else 4) 4 1 (initState 0 2 5) 0).1).xbuf 0 ∧
    (sampleStep 1 ((fun u _ => if u = 2 then 1 else 4) 4) 4
        ((genLoop 1 (fun u _ => if u = 2 then 1 else 4) 4 1 (initState 0 2 5) 0).1)).end_pads 0
      = ((genLoop 1 (fun u _ => if u = 2 then 1 else 4) 4 1 (initState 0 2 5) 0).1).end_pads 0 ∧
    (sampleStep 1 ((fun u _ => if u = 2 then 1 else 4) 4) 4
        ((genLoop 1 (fun u _ => if u = 2 then 1 else 4) 4 1 (initState 0 2 5) 0).1)).eos_mask 0
      = true) :=
  ⟨by decide,
   sample_ended_frozen_invariant 0 1 2 5 (fun u _ => if u = 2 then 1 else 4) 4 0
     (by decide)⟩

/-- C10: for every `n_batch ≥ 1` and `max_len ≥ 1`, `VAE.sample` returns a
list of exactly `n_batch` strings, for every draw function (which absorbs
the random draws, the supplied or prior-sampled `z`, and the
temperature); every truncated buffer row has `bos` at position 0, and the
output strings are the rows converted through
`ids2string(·, rem_bos=True, rem_eos=True)`, which strips that `bos`. -/
theorem sample_batch_size_and_bos (v : Vocabulary) (draw : ℕ → ℕ → ℕ)
    (n_batch max_len : ℕ) (_hn : 1 ≤ n_batch) (hm : 1 ≤ max_len) :
    (sample v draw n_batch max_len).length = n_batch ∧
    (∀ row ∈ sampleTokens v.bos v.eos v.pad draw n_batch max_len,
      row.head? = some v.bos) ∧
    sample v draw n_batch max_len
      = (sampleTokens v.bos v.eos v.pad draw n_batch max_len).map
          (fun row => v.ids2string row true true) := by
  obtain ⟨h1, h2, h3, h4⟩ := genLoop_SInv v.bos v.eos v.pad max_len draw max_len 1
    (initState v.bos v.pad max_len) 0 (le_refl 1)
    (SInv_initState v.bos v.pad max_len)
  refine ⟨?_, ?_, rfl⟩
  · simp [sample, sampleTokens]
  · intro row hrow
    simp only [sampleTokens] at hrow
    rcases List.mem_map.mp hrow with ⟨q, hq, hrow_eq⟩
    have hep : 0 < (sampleFinal v.bos v.eos v.pad draw max_len).end_pads q := by
      show 0 < (genLoop v.eos draw max_len 1
        (initState v.bos v.pad max_len) 0).1.end_pads q
      cases hmq : (genLoop v.eos draw max_len 1
          (initState v.bos v.pad max_len) 0).1.eos_mask q with
      | true =>
        have := (h3 q hmq).1
        omega
      | false =>
        have := h4 q hmq
        omega
    rw [← hrow_eq, head_map_range _ _ hep]
    exact congrArg some (h2 q)

/-- Witness for C10 with the spec scenario vocabulary, constant draws,
`n_batch = 2`, `max_len = 3`. -/
theorem sample_batch_size_and_bos_witness :
    (sample specVocab (fun _ _ => 4) 2 3).length = 2 ∧
    (∀ row ∈ sampleTokens specVocab.bos specVocab.eos specVocab.pad
        (fun _ _ => 4) 2 3, row.head? = some specVocab.bos) ∧
    sample specVocab (fun _ _ => 4) 2 3
      = (sampleTokens specVocab.bos specVocab.eos specVocab.pad
          (fun _ _ => 4) 2 3).map
            (fun row => specVocab.ids2string row true true) :=
  sample_batch_size_and_bos specVocab (fun _ _ => 4) 2 3 (by decide) (by decide)

/-- C2: if sequence `s` first draws `eos` at step `t` (`1 ≤ t ≤ max_len-1`),
then its recorded end position equals `t + 1`, every sequence's end
position is at most `max_len`, the truncated row returned for `s` has
exactly the `t + 1` entries at positions `0 .. t`, and both the row and
the returned string coincide with those produced by any draw function
agreeing with `draw` up to step `t` — so no token generated at a step
after `t` reaches the output. -/
theorem sample_eos_truncation (v : Vocabulary) (draw draw2 : ℕ → ℕ → ℕ)
    (n_batch max_len t s : ℕ)
    (ht1 : 1 ≤ t) (ht2 : t ≤ max_len - 1) (hml : 1 ≤ max_len)
    (hs : s < n_batch)
    (heos : draw t s = v.eos)
    (hfirst : ∀ u, u < t → 1 ≤ u → draw u s ≠ v.eos)
    (hagree : ∀ u, u ≤ t → draw2 u s = draw u s) :
    (sampleFinal v.bos v.eos v.pad draw max_len).end_pads s = t + 1 ∧
    (∀ q, (sampleFinal v.bos v.eos v.pad draw max_len).end_pads q ≤ max_len) ∧
    ((sampleTokens v.bos v.eos v.pad draw n_batch max_len).getD s []).length
      = t + 1 ∧
    (sampleTokens v.bos v.eos v.pad draw2 n_batch max_len).getD s []
      = (sampleTokens v.bos v.eos v.pad draw n_batch max_len).getD s [] ∧
    (sample v draw2 n_batch max_len).getD s []
      = (sample v draw n_batch max_len).getD s [] := by
  have htlt : t < max_len := by omega
  -- before step t, sequence s has not ended (under either draw function)
  have hM := genLoop_no_eos v.eos draw t 1 (initState v.bos v.pad max_len) 0 s
    rfl (fun u hu1 hu2 => hfirst u hu2 hu1)
  have hM2 := genLoop_no_eos v.eos draw2 t 1 (initState v.bos v.pad max_len) 0 s
    rfl (fun u hu1 hu2 => by
      rw [hagree u (by omega)]
      exact hfirst u hu2 hu1)
  -- step t sets the flag and records end position t + 1
  have hSt_mask : (sampleStep v.eos (draw t) t
      (genLoop v.eos draw t 1 (initState v.bos v.pad max_len) 0).1).eos_mask s
      = true := by
    simp [sampleStep, hM.1, heos]
  have hSt_pads : (sampleStep v.eos (draw t) t
      (genLoop v.eos draw t 1 (initState v.bos v.pad max_len) 0).1).end_pads s
      = t + 1 := by
    simp [sampleStep, hM.1, heos]
  -- the run up to step t+1 is exactly the run to t followed by step t
  have hGSt : genLoop v.eos draw (t + 1) 1 (initState v.bos v.pad max_len) 0
      = (sampleStep v.eos (draw t) t
          (genLoop v.eos draw t 1 (initState v.bos v.pad max_len) 0).1,
         (genLoop v.eos draw t 1 (initState v.bos v.pad max_len) 0).2 + 1) := by
    rw [genLoop_split v.eos draw (t + 1) t 1 (initState v.bos v.pad max_len) 0
      ht1 (by omega)]
    rw [genLoop_step v.eos draw (t + 1) t _ _ (by omega)]
    rw [genLoop_stop v.eos draw (t + 1) (t + 1) _ _ (by omega)]
  have hGmask : (genLoop v.eos draw (t + 1) 1
      (initState v.bos v.pad max_len) 0).1.eos_mask s = true := by
    rw [hGSt]
    exact hSt_mask
  have hGpads : (genLoop v.eos draw (t + 1) 1
      (initState v.bos v.pad max_len) 0).1.end_pads s = t + 1 := by
    rw [hGSt]
    exact hSt_pads
  -- the same, under the agreeing draw function
  have hag := genLoop_agree v.eos draw draw2 (t + 1) 1
    (initState v.bos v.pad max_len) (initState v.bos v.pad max_len) 0 0 s
    rfl rfl rfl (fun u hu1 hu2 => (hagree u (by omega)).symm)
  have hGmask2 : (genLoop v.eos draw2 (t + 1) 1
      (initState v.bos v.pad max_len) 0).1.eos_mask s = true :=
    (hag.2.2.symm).trans hGmask
  -- the full runs split at t+1 and freeze sequence s afterwards
  have hsplitF := genLoop_split v.eos draw max_len (t + 1) 1
    (initState v.bos v.pad max_len) 0 (by omega) (by omega)
  have hsplitF2 := genLoop_split v.eos draw2 max_len (t + 1) 1
    (initState v.bos v.pad max_len) 0 (by omega) (by omega)
  have hF := genLoop_frozen v.eos draw max_len (t + 1)
    (genLoop v.eos draw (t + 1) 1 (initState v.bos v.pad max_len) 0).1
    (genLoop v.eos draw (t + 1) 1 (initState v.bos v.pad max_len) 0).2 s hGmask
  have hF2 := genLoop_frozen v.eos draw2 max_len (t + 1)
    (genLoop v.eos draw2 (t + 1) 1 (initState v.bos v.pad max_len) 0).1
    (genLoop v.eos draw2 (t + 1) 1 (initState v.bos v.pad max_len) 0).2 s hGmask2
  have hfin_pads : (sampleFinal v.bos v.eos v.pad draw max_len).end_pads s
      = t + 1 := by
    show (genLoop v.eos draw max_len 1
      (initState v.bos v.pad max_len) 0).1.end_pads s = t + 1
    rw [hsplitF]
    exact hF.2.1.trans hGpads
  have hfin_pads2 : (sampleFinal v.bos v.eos v.pad draw2 max_len).end_pads s
      = (sampleFinal v.bos v.eos v.pad draw max_len).end_pads s := by
    show (genLoop v.eos draw2 max_len 1
        (initState v.bos v.pad max_len) 0).1.end_pads s
      = (genLoop v.eos draw max_len 1
        (initState v.bos v.pad max_len) 0).1.end_pads s
    rw [hsplitF, hsplitF2]
    exact (hF2.2.1.trans hag.2.1.symm).trans hF.2.1.symm
  have hfin_xbuf : (sampleFinal v.bos v.eos v.pad draw2 max_len).xbuf s
      = (sampleFinal v.bos v.eos v.pad draw max_len).xbuf s := by
    show (genLoop v.eos draw2 max_len 1
        (initState v.bos v.pad max_len) 0).1.xbuf s
      = (genLoop v.eos draw max_len 1
        (initState v.bos v.pad max_len) 0).1.xbuf s
    rw [hsplitF, hsplitF2]
    exact (hF2.1.trans hag.1.symm).trans hF.1.symm
  refine ⟨hfin_pads, ?_, ?_, ?_, ?_⟩
  · -- every end position is bounded by max_len
    obtain ⟨h1, h2, h3, h4⟩ := genLoop_SInv v.bos v.eos v.pad max_len draw
      max_len 1 (initState v.bos v.pad max_len) 0 (le_refl 1)
      (SInv_initState v.bos v.pad max_len)
    intro q
    show (genLoop v.eos draw max_len 1
      (initState v.bos v.pad max_len) 0).1.end_pads q ≤ max_len
    cases hmq : (genLoop v.eos draw max_len 1
        (initState v.bos v.pad max_len) 0).1.eos_mask q with
    | true =>
      have := (h3 q hmq).2.1
      omega
    | false =>
      have := h4 q hmq
      omega
  · rw [sampleTokens_getD v.bos v.eos v.pad draw n_batch max_len s hs,
      hfin_pads, List.length_map, List.length_range]
  · rw [sampleTokens_getD v.bos v.eos v.pad draw n_batch max_len s hs,
      sampleTokens_getD v.bos v.eos v.pad draw2 n_batch max_len s hs,
      hfin_pads2, hfin_xbuf]
  · rw [sample_getD v draw n_batch max_len s hs,
      sample_getD v draw2 n_batch max_len s hs,
      sampleTokens_getD v.bos v.eos v.pad draw n_batch max_len s hs,
      sampleTokens_getD v.bos v.eos v.pad draw2 n_batch max_len s hs,
      hfin_pads2, hfin_xbuf]

/-- Witness for C2 with the spec scenario vocabulary: the draws emit `eos`
(id 1) first at step `t = 2` of a `max_len = 5` run; the second draw
function agrees up to step 2 and then diverges. -/
theorem sample_eos_truncation_witness :
    (sampleFinal specVocab.bos specVocab.eos specVocab.pad
        (fun u _ => if u = 2 then 1 else 4) 5).end_pads 0 = 2 + 1 ∧
    (∀ q, (sampleFinal specVocab.bos specVocab.eos specVocab.pad
        (fun u _ => if u = 2 then 1 else 4) 5).end_pads q ≤ 5) ∧
    ((sampleTokens specVocab.bos specVocab.eos specVocab.pad
        (fun u _ => if u = 2 then 1 else 4) 1 5).getD 0 []).length = 2 + 1 ∧
    (sampleTokens specVocab.bos specVocab.eos specVocab.pad
        (fun u _ => if u = 2 then 1 else if u ≤ 2 then 4 else 9) 1 5).getD 0 []
      = (sampleTokens specVocab.bos specVocab.eos specVocab.pad
          (fun u _ => if u = 2 then 1 else 4) 1 5).getD 0 [] ∧
    (sample specVocab (fun u _ => if u = 2 then 1 else if u ≤ 2 then 4 else 9)
        1 5).getD 0 []
      = (sample specVocab (fun u _ => if u = 2 then 1 else 4) 1 5).getD 0 [] :=
  sample_eos_truncation specVocab (fun u _ => if u = 2 then 1 else 4)
    (fun u _ => if u = 2 then 1 else if u ≤ 2 then 4 else 9) 1 5 2 0
    (by decide) (by decide) (by decide) (by decide) (by decide) (by decide)
    (by decide)

/-- Pairs whose target comes from a pad-filled block are all ignored. -/
theorem filter_zip_replicate_pad {A : Type} (pad k : ℕ) (l : List A) :
    ((l.zip (List.replicate k pad)).filter fun p => decide (p.2 ≠ pad)) = [] := by
  rw [List.filter_eq_nil_iff]
  intro p hp
  have hmem := (List.of_mem_zip hp).2
  have hpad := List.eq_of_mem_replicate hmem
  simp [hpad]

/-- Row-level masking invariance: appending `k` trailing `pad` targets to a
row (and any `k` extra logit rows) leaves the ignored-filtered
shift-by-one pairs of that row unchanged. -/
theorem row_shift_pad_invariant (pad k : ℕ) (e : List (List ℝ))
    (he : e.length = k) :
    ∀ (xr : List ℕ) (yr : List (List ℝ)), yr.length = xr.length →
      (((yr ++ e).dropLast.zip ((xr ++ List.replicate k pad).drop 1)).filter
          fun p => decide (p.2 ≠ pad))
        = ((yr.dropLast.zip (xr.drop 1)).filter fun p => decide (p.2 ≠ pad)) := by
  cases k with
  | zero =>
    have he0 : e = [] := List.length_eq_zero.mp he
    subst he0
    intro xr yr _
    simp
  | succ n =>
    cases e with
    | nil => exact nomatch he
    | cons eh et =>
      intro xr
      induction xr with
      | nil =>
        intro yr h
        have hy0 : yr = [] := List.length_eq_zero.mp (by simpa using h)
        subst hy0
        rw [List.nil_append, List.nil_append, List.replicate_succ]
        show (((eh :: et).dropLast.zip (List.replicate n pad)).filter
          fun p => decide (p.2 ≠ pad)) = _
        rw [filter_zip_replicate_pad]
        rfl
      | cons a xr2 ih =>
        intro yr h
        cases yr with
        | nil => simp at h
        | cons b yr2 =>
          cases xr2 with
          | nil =>
            have hy2 : yr2 = [] := List.length_eq_zero.mp (by simpa using h)
            subst hy2
            show ((((b :: (eh :: et)).dropLast).zip
                ((pad :: List.replicate n pad))).filter
                  fun p => decide (p.2 ≠ pad)) = _
            show (((b :: (eh :: et).dropLast).zip
                (pad :: List.replicate n pad)).filter
                  fun p => decide (p.2 ≠ pad)) = _
            rw [List.zip_cons_cons, List.filter_cons]
            rw [if_neg (by simp)]
            rw [filter_zip_replicate_pad]
            rfl
          | cons a2 xr3 =>
            cases yr2 with
            | nil => simp at h
            | cons b2 yr3 =>
              have htail := ih (b2 :: yr3) (by simpa using h)
              show ((((b :: ((b2 :: yr3) ++ (eh :: et))).dropLast).zip
                  ((a2 :: xr3) ++ List.replicate (n + 1) pad)).filter
                    fun p => decide (p.2 ≠ pad)) = _
              show (((b :: ((b2 :: yr3) ++ (eh :: et)).dropLast).zip
                  (a2 :: (xr3 ++ List.replicate (n + 1) pad))).filter
                    fun p => decide (p.2 ≠ pad)) = _
              rw [List.zip_cons_cons, List.filter_cons]
              show _ = (((b :: (b2 :: yr3).dropLast).zip (a2 :: xr3)).filter
                fun p => decide (p.2 ≠ pad))
              rw [List.zip_cons_cons, List.filter_cons]
              have htail2 : ((((b2 :: yr3) ++ (eh :: et)).dropLast).zip
                  (xr3 ++ List.replicate (n + 1) pad)).filter
                    (fun p => decide (p.2 ≠ pad))
                  = (((b2 :: yr3).dropLast).zip xr3).filter
                    (fun p => decide (p.2 ≠ pad)) := htail
              rw [htail2]

/-- Batch-level masking invariance for the flattened shift-by-one pairs:
appending `k` trailing `pad` tokens to every row of `x` (and `k` extra
logit rows to every row of `y`) leaves the ignored-filtered pair list of
`compute_loss` unchanged. -/
theorem shifted_pairs_pad_invariant (pad k : ℕ) :
    ∀ (x : List (List ℕ)) (y : List (List (List ℝ)))
      (es : List (List (List ℝ))),
      y.length = x.length → es.length = x.length →
      (∀ p ∈ y.zip x, p.1.length = p.2.length) →
      (∀ e ∈ es, e.length = k) →
      ((((List.zipWith (fun a b => a ++ b) y es).flatMap List.dropLast).zip
          ((x.map fun xr => xr ++ List.replicate k pad).flatMap
            (List.drop 1))).filter fun p => decide (p.2 ≠ pad))
        = (((y.flatMap List.dropLast).zip
            (x.flatMap (List.drop 1))).filter fun p => decide (p.2 ≠ pad)) := by
  intro x
  induction x with
  | nil =>
    intro y es h1 h2 _ _
    have hy : y = [] := List.length_eq_zero.mp h1
    have hes : es = [] := List.length_eq_zero.mp h2
    subst hy
    subst hes
    rfl
  | cons xr xt ih =>
    intro y es h1 h2 h3 h4
    cases y with
    | nil => simp at h1
    | cons yr yt =>
      cases es with
      | nil => simp at h2
      | cons er et =>
        have hrow : yr.length = xr.length := h3 (yr, xr)
          (by rw [List.zip_cons_cons]; exact List.mem_cons_self _ _)
        have her : er.length = k := h4 er (List.mem_cons_self _ _)
        have hlen1 : ((yr ++ er).dropLast).length
            = ((xr ++ List.replicate k pad).drop 1).length := by
          simp only [List.length_dropLast, List.length_drop,
            List.length_append, List.length_replicate, hrow, her]
        have hlen2 : (yr.dropLast).length = (xr.drop 1).length := by
          simp only [List.length_dropLast, List.length_drop, hrow]
        rw [List.zipWith_cons_cons, List.map_cons, List.flatMap_cons,
          List.flatMap_cons, List.zip_append hlen1, List.filter_append,
          List.flatMap_cons, List.flatMap_cons, List.zip_append hlen2,
          List.filter_append]
        rw [row_shift_pad_invariant pad k er her xr yr hrow]
        rw [ih yt et (by simpa using h1) (by simpa using h2)
          (fun p hp => h3 p
            (by rw [List.zip_cons_cons]; exact List.mem_cons_of_mem _ hp))
          (fun e hee => h4 e (List.mem_cons_of_mem _ hee))]

/-- C5: `compute_loss` is the position-shifted cross-entropy (logits at
position `t` against the target token at `t+1`) that ignores every
position whose target is `pad`; consequently the loss is unchanged when
every row of the target batch gains `k` trailing `pad` tokens (and the
logit batch gains `k` matching trailing rows), for any `k`. -/
theorem compute_loss_pad_append_invariant (pad k : ℕ) (x : List (List ℕ))
    (y : List (List (List ℝ))) (es : List (List (List ℝ)))
    (h1 : y.length = x.length) (h2 : es.length = x.length)
    (h3 : ∀ p ∈ y.zip x, p.1.length = p.2.length)
    (h4 : ∀ e ∈ es, e.length = k) :
    compute_loss pad (x.map fun xr => xr ++ List.replicate k pad)
        (List.zipWith (fun a b => a ++ b) y es)
      = compute_loss pad x y := by
  simp only [compute_loss, cross_entropy]
  rw [shifted_pairs_pad_invariant pad k x y es h1 h2 h3 h4]

/-- Witness for C5: the batch `[[0, 4, 1]]` ("CO"-style row with `bos`,
one token, `eos`), single-logit rows, `k = 2` appended pads (`pad = 2`). -/
theorem compute_loss_pad_append_invariant_witness :
    ([[[(0 : ℝ)], [0], [0]]] : List (List (List ℝ))).length
        = ([[0, 4, 1]] : List (List ℕ)).length ∧
    ([[[(5 : ℝ)], [5]]] : List (List (List ℝ))).length
        = ([[0, 4, 1]] : List (List ℕ)).length ∧
    (∀ p ∈ ([[[(0 : ℝ)], [0], [0]]] : List (List (List ℝ))).zip
        ([[0, 4, 1]] : List (List ℕ)), p.1.length = p.2.length) ∧
    (∀ e ∈ ([[[(5 : ℝ)], [5]]] : List (List (List ℝ))), e.length = 2) ∧
    compute_loss 2 (([[0, 4, 1]] : List (List ℕ)).map
        fun xr => xr ++ List.replicate 2 2)
        (List.zipWith (fun a b => a ++ b) [[[(0 : ℝ)], [0], [0]]]
          [[[(5 : ℝ)], [5]]])
      = compute_loss 2 [[0, 4, 1]] [[[(0 : ℝ)], [0], [0]]] :=
  ⟨rfl, rfl, by decide, by decide,
   compute_loss_pad_append_invariant 2 2 [[0, 4, 1]]
     [[[(0 : ℝ)], [0], [0]]] [[[(5 : ℝ)], [5]]] rfl rfl
     (by decide) (by decide)⟩
